import Mathlib

/-!
Shallow embedding of the excel-convert recovery-and-normalization pipeline
(source file: `src/unnamed/part_002`).

Modelling conventions:
* JavaScript strings are `List Char` (`Str`); all string primitives used by
  the source (`trim`, `split`, `includes`, `toLowerCase`, …) are re-implemented
  over that representation, restricted to their ASCII behaviour where the
  source only feeds them ASCII-relevant data.
* JavaScript numbers are exact rationals `ℚ`; the IEEE-754 overflow check
  `isFinite` is modelled by the explicit magnitude bound `|q| < 2^1024`
  (`isFiniteD`).  `parseFloat` is modelled by `parseDec`, exact on the
  decimal shapes the source ever passes to it.
* The opaque external collaborators (byte decoding via jschardet/iconv, the
  binary xlsx reader `XLSX.read` and writer `XLSX.write`) are passed in as
  parameters: the pipeline model takes the already-decoded text, the standard
  parser's outcome, and a serializer function.  The `sheet_to_json` /
  `aoa_to_sheet` round trip inside `normalizeWorkbook` is modelled as the
  identity on the cell grid, per the spec's opaque-library boundary.
-/

attribute [local semireducible] Rat.mul Rat.add Rat.inv Rat.sub

abbrev Str := List Char

/-- Coerce a Lean string literal into the `List Char` string model. -/
def strL (s : String) : Str := s.toList

/-- JavaScript whitespace (the ASCII portion, as used by `trim` and `\s`). -/
def isWS (c : Char) : Bool :=
  c == ' ' || c == '\t' || c == '\n' || c == '\r' || c == '\x0b' || c == '\x0c'

/-- Drop trailing whitespace (the right half of JS `trim`). -/
def dropTrailWS : Str → Str
  | [] => []
  | c :: rest =>
    match dropTrailWS rest with
    | [] => if isWS c then [] else [c]
    | r => c :: r

/-- JS `String.prototype.trim`. -/
def trim (s : Str) : Str := dropTrailWS (s.dropWhile isWS)

/-- JS `String.prototype.includes` for a single character. -/
def containsChar (c : Char) (s : Str) : Bool := decide (c ∈ s)

/-- JS `String.prototype.toLowerCase` (ASCII letters). -/
def toLowerStr (s : Str) : Str := s.map Char.toLower

/-- JS `String.prototype.split` with a single-character separator. -/
def splitOnChar (sep : Char) : Str → List Str
  | [] => [[]]
  | c :: rest =>
    if c = sep then [] :: splitOnChar sep rest
    else
      match splitOnChar sep rest with
      | [] => [[c]]
      | r :: rs => (c :: r) :: rs

/-- Decimal digit character of a value `0 ≤ n ≤ 9`. -/
def digitChar (n : Nat) : Char := Char.ofNat (48 + n)

/-- Decimal rendering, structurally recursive on a fuel bound (so that the
kernel can evaluate it); `fuel = n + 1` always suffices since `n / 10 < n`
for `n ≥ 10`. -/
def natToStrAux : Nat → Nat → Str
  | 0, _ => []
  | fuel + 1, n =>
    if n < 10 then [digitChar n]
    else natToStrAux fuel (n / 10) ++ [digitChar (n % 10)]

/-- Decimal rendering of a natural number (for the `컬럼${n}` template). -/
def natToStr (n : Nat) : Str := natToStrAux (n + 1) n

/-- Numeric value of a digit string (most significant first). -/
def digitsToNat (s : Str) : Nat :=
  s.foldl (fun a c => 10 * a + (c.toNat - 48)) 0

/-- `trimmed.replace(/,/g, '')`. -/
def stripCommas (s : Str) : Str := s.filter (fun c => c != ',')

/-- `2 ^ 1024`, the IEEE-754 double overflow threshold, as an explicit
numeral (`isFiniteD_bound_eq` below checks the value). -/
def twoPow1024 : ℕ := 179769313486231590772930519078902473361797697894230657273430081157732675805500963132708477322407536021120113879871393357658789768814416622492847430639474124377767893424865485276302219601246094119453082952085005768838150682342462881473913110540827237163350510684586298239947245938479716304835356329624224137216

/-- IEEE-754 double overflow bound: `isFinite` of the exact value. -/
def isFiniteD (q : ℚ) : Bool := decide (|q| < (twoPow1024 : ℚ))

/-- The fraction digits of a decimal string: when the remainder after the
integer digits starts with `.`, the digit run following that dot. -/
def parseFrac (t : Str) : Str :=
  if (t.dropWhile Char.isDigit).headD ' ' = '.'
  then ((t.dropWhile Char.isDigit).drop 1).takeWhile Char.isDigit
  else []

/-- Exact value of an unsigned decimal string (integer digits, optional
fraction digits). -/
def parseDecValue (t : Str) : ℚ :=
  (digitsToNat (t.takeWhile Char.isDigit) : ℚ) +
    (digitsToNat (parseFrac t) : ℚ) / ((10 : ℚ) ^ (parseFrac t).length)

/-- JS `parseFloat`, exact on the `-?\d*(\.\d*)?` shapes produced by the
source's comma-stripped regex matches (`NaN` becomes `none`: no digit in
either the integer or the fraction part). -/
def parseDec (s : Str) : Option ℚ :=
  if s.headD ' ' = '-' then
    if ((s.drop 1).takeWhile Char.isDigit).isEmpty && (parseFrac (s.drop 1)).isEmpty
    then none else some (-(parseDecValue (s.drop 1)))
  else
    if (s.takeWhile Char.isDigit).isEmpty && (parseFrac s).isEmpty
    then none else some (parseDecValue s)

/-- Total variant of `parseDec` (value of a successful parse, `0` otherwise). -/
def ratOfDec (s : Str) : ℚ := (parseDec s).getD 0

/-- A digit-or-comma character (the `[\d,]` class of the numeric regex). -/
def numChar (c : Char) : Bool := c.isDigit || c == ','

/-- Strip the optional leading `-` of the numeric regex. -/
def dropSign (s : Str) : Str := if s.headD ' ' = '-' then s.drop 1 else s

/-- The source's numeric test `^-?[\d,]+\.?\d*$` (deterministic reading of
the regex: maximal digit-or-comma run, optional `.`, trailing digits). -/
def matchNum (s : Str) : Bool :=
  !((dropSign s).takeWhile numChar).isEmpty &&
    (((dropSign s).dropWhile numChar).isEmpty ||
      (((dropSign s).dropWhile numChar).headD ' ' == '.' &&
        (((dropSign s).dropWhile numChar).drop 1).all Char.isDigit))

/-- The percent test `^(-?[\d,]+\.?\d*)\s*%$`: returns the captured numeric
group when the whole string matches. -/
def percentGroup (s : Str) : Option Str :=
  if s.getLastD ' ' = '%' then
    if matchNum (dropTrailWS s.dropLast) then some (dropTrailWS s.dropLast) else none
  else none

/-- The date test `^\d{4}-\d{2}-\d{2}$` plus `date-fns` `parseISO`/`isValid`
calendar validation. Returns year, month, day. -/
def isLeapYear (y : Nat) : Bool :=
  (y % 4 == 0 && y % 100 != 0) || y % 400 == 0

def daysInMonth (y m : Nat) : Nat :=
  if m = 2 then (if isLeapYear y then 29 else 28)
  else if m = 4 ∨ m = 6 ∨ m = 9 ∨ m = 11 then 30
  else 31

def dateRule (s : Str) : Option (Nat × Nat × Nat) :=
  match s with
  | [y1, y2, y3, y4, d1, m1, m2, d2, dd1, dd2] =>
    if y1.isDigit && y2.isDigit && y3.isDigit && y4.isDigit && d1 == '-' &&
        m1.isDigit && m2.isDigit && d2 == '-' && dd1.isDigit && dd2.isDigit then
      let y := digitsToNat [y1, y2, y3, y4]
      let m := digitsToNat [m1, m2]
      let d := digitsToNat [dd1, dd2]
      if 1 ≤ m ∧ m ≤ 12 ∧ 1 ≤ d ∧ d ≤ daysInMonth y m then some (y, m, d)
      else none
    else none
  | _ => none

/-- The boolean rule: case-insensitive membership in the true/false word sets. -/
def boolRule (s : Str) : Option Bool :=
  let lower := toLowerStr s
  if lower = strL "true" ∨ lower = strL "참" ∨ lower = strL "yes" then some true
  else if lower = strL "false" ∨ lower = strL "거짓" ∨ lower = strL "no" then some false
  else none

/-- A cell value as it lives in a worksheet: the JavaScript union
`string | number | boolean | Date | null` used by the source
(`normalizeCell` returns `''` — a string — for blanks, and `sheet_to_json`
with `defval: null` can produce `null`). Percents are plain numbers. -/
inductive Cell where
  | null : Cell
  | str (s : Str) : Cell
  | num (q : ℚ) : Cell
  | bool (b : Bool) : Cell
  | date (y m d : Nat) : Cell
deriving DecidableEq

/-- Rule 2/3 of `normalizeCell`: numeric regex with the extra `!includes('(')`
check, comma stripping, `parseFloat`, and the `isNaN`/`isFinite` guard. -/
def numRule (t : Str) : Option ℚ :=
  if matchNum t && !containsChar '(' t then
    match parseDec (stripCommas t) with
    | some q => if isFiniteD q then some q else none
    | none => none
  else none

/-- The percent rule: captured group, comma stripping, parse, divide by 100. -/
def percentRule (t : Str) : Option ℚ :=
  match percentGroup t with
  | some g =>
    match parseDec (stripCommas g) with
    | some q => if isFiniteD q then some (q / 100) else none
    | none => none
  | none => none

/-- Rule 2 of the spec: the parenthesis guard `includes('(') && includes(')')`. -/
def containsParens (t : Str) : Bool :=
  containsChar '(' t && containsChar ')' t

/-- `normalizeCell` (CellTypeNormalizer): blank → `''`; both parens → text;
then number, percent, date, boolean; otherwise the trimmed text verbatim. -/
def normalizeCell (value : Str) : Cell :=
  if (trim value).isEmpty then .str []
  else if containsParens (trim value) then .str (trim value)
  else
    match numRule (trim value) with
    | some q => .num q
    | none =>
      match percentRule (trim value) with
      | some q => .num q
      | none =>
        match dateRule (trim value) with
        | some ymd => .date ymd.1 ymd.2.1 ymd.2.2
        | none =>
          match boolRule (trim value) with
          | some b => .bool b
          | none => .str (trim value)

/-! ## RowParser (`parseCSVLine`) -/

/-- The two-state scanner loop of `parseCSVLine`: `qs` is the active quote
character (`none` = unquoted), `current` the accumulating cell.  A matching
quote doubled inside a quoted span is an escaped literal quote; end of input
flushes the trimmed current cell (also when a quote is left open). -/
def parseGo (delim : Char) : Str → Option Char → Str → List Str
  | [], _, current => [trim current]
  | c :: rest, none, current =>
    if c = '"' ∨ c = '\'' then parseGo delim rest (some c) current
    else if c = delim then trim current :: parseGo delim rest none []
    else parseGo delim rest none (current ++ [c])
  | [c], some q, current =>
    if c = q then [trim current] else [trim (current ++ [c])]
  | c :: c' :: rest, some q, current =>
    if c = q then
      if c' = q then parseGo delim rest (some q) (current ++ [c])
      else parseGo delim (c' :: rest) none current
    else parseGo delim (c' :: rest) (some q) (current ++ [c])

/-- `parseCSVLine(line, delimiter)`: pre-trims the line, then scans.  (The
source's final `.map(cell => cell || '')` maps strings to themselves and is
omitted as the identity.) -/
def parseCSVLine (line : Str) (delim : Char) : List Str :=
  parseGo delim (trim line) none []

/-! ## DelimiterInferencer (`detectDelimiter`) -/

def delimiterCandidates : List Char := ['\t', ',', ';', '|']

/-- The sampled lines: the source takes the first 10 raw lines and then keeps
the non-blank ones (`split('\n').slice(0, 10).filter(line => line.trim())`). -/
def sampledLines (text : Str) : List Str :=
  ((splitOnChar '\n' text).take 10).filter (fun l => !(trim l).isEmpty)

/-- Column counts of a candidate: each non-blank line is split with the plain
single-character `split` (not the quote-aware parser) and counts > 1 are kept. -/
def columnCounts (lines : List Str) (d : Char) : List Nat :=
  ((lines.filter (fun l => !(trim l).isEmpty)).map
    (fun l => (splitOnChar d l).length)).filter (fun n => decide (n > 1))

def listMaxNat (l : List Nat) : Nat := l.foldr Nat.max 0

def listMinNat (l : List Nat) : Nat :=
  match l with
  | [] => 0
  | c :: cs => cs.foldr Nat.min c

/-- The candidate's score: `avg * max(consistency, 0.5) * counts.length`,
with `consistency = 0.8` when `max > 10` else `1 - (max-min)/max(avg,1)`;
`0` when no counts were recorded. -/
def scoreOf (lines : List Str) (d : Char) : ℚ :=
  let counts := columnCounts lines d
  if counts = [] then 0
  else
    let avg : ℚ := (counts.sum : ℚ) / (counts.length : ℚ)
    let maxC := listMaxNat counts
    let minC := listMinNat counts
    let consistency : ℚ :=
      if maxC > 10 then 8 / 10
      else 1 - ((maxC : ℚ) - (minC : ℚ)) / (max avg 1)
    avg * max consistency (1 / 2) * (counts.length : ℚ)

/-- One iteration of the best-delimiter loop: when counts were recorded and
the score strictly beats the running maximum, the candidate takes over. -/
def detectStep (lines : List Str) (acc : Char × ℚ) (d : Char) : Char × ℚ :=
  if columnCounts lines d = [] then acc
  else if scoreOf lines d > acc.2 then (d, scoreOf lines d) else acc

/-- `detectDelimiter`: fold the candidates in priority order over the sampled
lines, starting from the comma default with score 0. -/
def detectDelimiter (text : Str) : Char :=
  (delimiterCandidates.foldl (detectStep (sampledLines text)) (',', 0)).1

/-! ## RecoveryPipeline (`textBasedRecovery`) -/

/-- JS truthiness-plus-nonblank test used for row retention:
`cell !== null && cell !== ''`. -/
def nonEmptyCell (c : Cell) : Bool := !(c == .null) && !(c == .str [])

/-- The header step: a blank header cell is replaced by
`` `컬럼${cells.indexOf(cell) + 1}` `` — note the content lookup `indexOf`,
which returns the first index holding the same value. -/
def headerCells (cells : List Str) : List Str :=
  cells.map (fun cell =>
    if (trim cell).isEmpty then strL "컬럼" ++ natToStr (List.indexOf cell cells + 1)
    else trim cell)

/-- Per-line processing: line 0 keeps its parsed cells as strings (with the
blank-header placeholder), every other line is cell-normalized. -/
def processLine (delim : Char) (i : Nat) (line : Str) : List Cell :=
  let cells := parseCSVLine line delim
  if i = 0 then (headerCells cells).map Cell.str
  else cells.map normalizeCell

/-- The non-blank lines of the decoded text. -/
def recoveryLines (text : Str) : List Str :=
  (splitOnChar '\n' text).filter (fun l => !(trim l).isEmpty)

/-- All processed rows in order (the source tracks `maxColumns` over these,
including rows later dropped as all-empty). -/
def recoveryProcessed (text : Str) : List (List Cell) :=
  (recoveryLines text).enum.map (fun p => processLine (detectDelimiter text) p.1 p.2)

def recoveryMaxColumns (text : Str) : Nat :=
  (recoveryProcessed text).foldl (fun m r => Nat.max m r.length) 0

/-- The retained rows: the header row unconditionally, any other row only if
some cell is non-null and non-blank. -/
def recoveryData (text : Str) : List (List Cell) :=
  (recoveryLines text).enum.filterMap (fun p =>
    if p.1 = 0 ∨ (processLine (detectDelimiter text) p.1 p.2).any nonEmptyCell
    then some (processLine (detectDelimiter text) p.1 p.2) else none)

/-- Right-pad a row with `''` cells to width `w`. -/
def padRow (w : Nat) (row : List Cell) : List Cell :=
  row ++ List.replicate (w - row.length) (Cell.str [])

structure Sheet where
  name : Str
  grid : List (List Cell)
deriving DecidableEq

structure Workbook where
  sheets : List Sheet
deriving DecidableEq

instance {ε α : Type} [DecidableEq ε] [DecidableEq α] : DecidableEq (Except ε α) :=
  fun x y =>
    match x, y with
    | .ok a, .ok b => if h : a = b then .isTrue (by rw [h]) else .isFalse (by simp [h])
    | .error a, .error b => if h : a = b then .isTrue (by rw [h]) else .isFalse (by simp [h])
    | .ok _, .error _ => .isFalse (by simp)
    | .error _, .ok _ => .isFalse (by simp)

/-- `textBasedRecovery` on the decoded text: build rows, right-pad every row
with `''` cells to the maximum observed width, fail when nothing was parsed,
otherwise produce the single-sheet workbook `Sheet1`. -/
def textBasedRecovery (text : Str) : Except Str Workbook :=
  if ((recoveryData text).map (padRow (recoveryMaxColumns text))).isEmpty then
    .error (strL "파싱된 데이터가 없습니다. 파일 형식을 확인해주세요.")
  else .ok ⟨[⟨strL "Sheet1", (recoveryData text).map (padRow (recoveryMaxColumns text))⟩]⟩

/-! ## `sanitizeFilename` and WorkbookNormalizer -/

/-- The allowed alphabet `[\w가-힣.\-_]` (`\w` = ASCII alphanumerics + `_`,
`가-힣` = the Hangul-syllable block). -/
def allowedFilenameChar (c : Char) : Bool :=
  c.isAlphanum || c == '_' || (0xAC00 ≤ c.toNat && c.toNat ≤ 0xD7A3) ||
    c == '.' || c == '-'

/-- Collapse every run of two or more underscores to one (`_{2,}` → `_`). -/
def collapseUnderscores : Str → Str
  | [] => []
  | [c] => [c]
  | c₁ :: c₂ :: rest =>
    if c₁ = '_' ∧ c₂ = '_' then collapseUnderscores (c₂ :: rest)
    else c₁ :: collapseUnderscores (c₂ :: rest)

/-- `sanitizeFilename`: replace disallowed characters by `_`, collapse
underscore runs, trim, and default to `converted_file` when empty. -/
def sanitizeFilename (filename : Str) : Str :=
  if (trim (collapseUnderscores (filename.map
      (fun c => if allowedFilenameChar c then c else '_')))).isEmpty
  then strL "converted_file"
  else trim (collapseUnderscores (filename.map
      (fun c => if allowedFilenameChar c then c else '_')))

/-- No two adjacent underscores (the post-condition of
`collapseUnderscores`, used to state its idempotence). -/
def noDoubleUnderscore : Str → Bool
  | c₁ :: c₂ :: rest =>
    !(c₁ == '_' && c₂ == '_') && noDoubleUnderscore (c₂ :: rest)
  | _ => true

/-- The per-cell step of `normalizeWorkbook`:
`typeof cell === 'string' ? normalizeCell(cell) : cell`. -/
def normalizeCellValue (c : Cell) : Cell :=
  match c with
  | .str s => normalizeCell s
  | c => c

/-- `normalizeWorkbook`: every string cell of every row (the header row
included) is re-run through `normalizeCell`; sheet names are sanitized and
truncated to 31 characters.  (`sheet_to_json`/`aoa_to_sheet` are modelled as
the identity on the grid.) -/
def normalizeWorkbook (wb : Workbook) : Workbook :=
  ⟨wb.sheets.map (fun sh =>
    ⟨(sanitizeFilename sh.name).take 31,
     sh.grid.map (fun row => row.map normalizeCellValue)⟩)⟩

/-! ## Top-level conversion (`convertToXlsx`, `processFile`) -/

def SUPPORTED_EXTENSIONS : List Str :=
  [strL ".xls", strL ".xlsx", strL ".csv", strL ".tsv", strL ".txt"]

def MAX_FILE_SIZE : Nat := 50 * 1024 * 1024

/-- `filename.toLowerCase().substring(filename.lastIndexOf('.'))`; when there
is no dot, JS `substring(-1)` yields the whole string. -/
def extensionOf (filename : Str) : Str :=
  let lower := toLowerStr filename
  match List.indexOf? '.' lower.reverse with
  | some j => lower.drop (lower.length - 1 - j)
  | none => lower

def validateFileExtension (filename : Str) : Bool :=
  SUPPORTED_EXTENSIONS.contains (extensionOf filename)

def validateFileSize (size : Nat) : Bool := size ≤ MAX_FILE_SIZE

/-- `filename.toLowerCase().split('.').pop()`. -/
def getFileExt (filename : Str) : Str :=
  (splitOnChar '.' (toLowerStr filename)).getLastD []

/-- `originalFilename.replace(/\.[^.]+$/, '')`: strip a final dot-extension
when it has at least one non-dot character. -/
def stripExtension (s : Str) : Str :=
  let afterRev := s.reverse.takeWhile (fun c => c != '.')
  let restRev := s.reverse.dropWhile (fun c => c != '.')
  match restRev with
  | '.' :: preRev => if afterRev.isEmpty then s else preRev.reverse
  | _ => s

/-- The header-validity probe of the standard-parse attempt:
`jsonData.length > 0 && jsonData[0].some(cell => cell && String(cell).trim() !== '')`.
(For truthy non-string cells, `String(cell)` is never whitespace-only.) -/
def cellTruthyNonblank (c : Cell) : Bool :=
  match c with
  | .null => false
  | .str s => !s.isEmpty && !(trim s).isEmpty
  | .num q => !(q == 0)
  | .bool b => b
  | .date _ _ _ => true

def hasValidHeader (wb : Workbook) : Bool :=
  match wb.sheets with
  | [] => false
  | sh :: _ =>
    match sh.grid with
    | [] => false
    | row :: _ => row.any cellTruthyNonblank

/-- `convertToXlsx(buffer, filename, forceTextRecovery)`.  The opaque
collaborators appear as parameters: `decoded` is `detectAndDecode(buffer)`,
`stdParse` the outcome of `XLSX.read` (`none` = it threw), `serialize` the
xlsx writer.  `.xlsx` inputs are returned unchanged before anything runs;
the standard-parse attempt falls back to text recovery on a thrown read, an
empty workbook, or an all-blank header; recovery errors are wrapped by the
outer catch. -/
def convertToXlsx (serialize : Workbook → List Nat) (stdParse : Option Workbook)
    (decoded : Str) (buffer : List Nat) (filename : Str)
    (forceTextRecovery : Bool) : Except Str (List Nat) :=
  if getFileExt filename = strL "xlsx" then .ok buffer
  else
    let attempt : Except Str Workbook :=
      if forceTextRecovery then textBasedRecovery decoded
      else
        match stdParse with
        | none => textBasedRecovery decoded
        | some wb =>
          if wb.sheets.isEmpty then textBasedRecovery decoded
          else if !hasValidHeader wb then textBasedRecovery decoded
          else .ok wb
    match attempt with
    | .error msg => .error (strL "파일 변환에 실패했습니다: " ++ msg)
    | .ok wb => .ok (serialize (normalizeWorkbook wb))

structure ConversionResult where
  success : Bool
  buffer : Option (List Nat)
  filename : Str
  originalSize : Nat
  convertedSize : Option Nat
  message : Option Str
  warnings : Option (List Str)
deriving DecidableEq

/-- The size-ratio warnings; the floating-point comparisons
`ratio > 3` and `ratio < 0.1` are exact at these magnitudes and are modelled
by the corresponding exact rational comparisons (with the JS `Infinity`/`NaN`
behaviour at `originalSize = 0` made explicit). -/
def sizeWarnings (originalSize convertedSize : Nat) : List Str :=
  if (originalSize = 0 ∧ 0 < convertedSize) ∨ 3 * originalSize < convertedSize then
    [strL "변환된 파일이 원본보다 상당히 큽니다. 데이터 확인을 권장합니다."]
  else if 10 * convertedSize < originalSize ∧ 1000 < originalSize then
    [strL "변환된 파일이 원본보다 상당히 작습니다. 데이터 손실이 있을 수 있습니다."]
  else []

/-- `processFile`: extension and size validation, conversion, output-name
construction and warnings; every thrown error is caught and returned as a
`{success: false, message}` result. -/
def processFile (serialize : Workbook → List Nat) (stdParse : Option Workbook)
    (decoded : Str) (buffer : List Nat) (originalFilename : Str)
    (forceTextRecovery : Bool) : ConversionResult :=
  if !validateFileExtension originalFilename then
    { success := false, buffer := none, filename := originalFilename,
      originalSize := buffer.length, convertedSize := none,
      message := some (strL "지원하지 않는 파일 형식입니다. 지원 형식: " ++
        (strL ", ").intercalate SUPPORTED_EXTENSIONS),
      warnings := none }
  else if !validateFileSize buffer.length then
    { success := false, buffer := none, filename := originalFilename,
      originalSize := buffer.length, convertedSize := none,
      message := some (strL "파일이 너무 큽니다. 최대 크기: 50MB"),
      warnings := none }
  else
    match convertToXlsx serialize stdParse decoded buffer originalFilename
        forceTextRecovery with
    | .error m =>
      { success := false, buffer := none, filename := originalFilename,
        originalSize := buffer.length, convertedSize := none,
        message := some m, warnings := none }
    | .ok out =>
      let resultFilename :=
        sanitizeFilename (stripExtension originalFilename) ++ strL "_변환완료.xlsx"
      let warnings := sizeWarnings buffer.length out.length
      { success := true, buffer := some out, filename := resultFilename,
        originalSize := buffer.length, convertedSize := some out.length,
        message := none,
        warnings := if warnings.isEmpty then none else some warnings }

/-! ## Claim-side reference definitions

These follow the wording of individual claims (not the source) and exist to
be compared against the source-derived definitions above. -/

/-- C5's sampling, as the claim words it: "the first 10 non-blank lines"
(filter the blanks first, then take ten). -/
def sampledLinesClaimed (text : Str) : List Str :=
  ((splitOnChar '\n' text).filter (fun l => !(trim l).isEmpty)).take 10

/-- C5's column counts, as the claim words them: every sampled line is split
"with the quote-aware row parser" using the candidate as separator. -/
def columnCountsClaimed (lines : List Str) (d : Char) : List Nat :=
  ((lines.filter (fun l => !(trim l).isEmpty)).map
    (fun l => (parseCSVLine l d).length)).filter (fun n => decide (n > 1))

/-- C5's score, identical to the source's formula but computed over the
quote-aware column counts. -/
def scoreOfClaimed (lines : List Str) (d : Char) : ℚ :=
  let counts := columnCountsClaimed lines d
  if counts = [] then 0
  else
    let avg : ℚ := (counts.sum : ℚ) / (counts.length : ℚ)
    let maxC := listMaxNat counts
    let minC := listMinNat counts
    let consistency : ℚ :=
      if maxC > 10 then 8 / 10
      else 1 - ((maxC : ℚ) - (minC : ℚ)) / (max avg 1)
    avg * max consistency (1 / 2) * (counts.length : ℚ)

def detectStepClaimed (lines : List Str) (acc : Char × ℚ) (d : Char) : Char × ℚ :=
  if columnCountsClaimed lines d = [] then acc
  else if scoreOfClaimed lines d > acc.2 then (d, scoreOfClaimed lines d) else acc

/-- The delimiter-inference procedure exactly as claim C5 describes it. -/
def detectDelimiterClaimed (text : Str) : Char :=
  (delimiterCandidates.foldl (detectStepClaimed (sampledLinesClaimed text)) (',', 0)).1

/-- C10's string shape, as the claim words it: an optional leading `-`, one
or more digit-or-comma characters with at least one digit among them, then
an optional `.` followed by zero or more digits. -/
def claimNumShape (s : Str) : Bool :=
  matchNum s && ((dropSign s).takeWhile numChar).any Char.isDigit

/-! ## Concrete example values used by counterexamples and witnesses -/

/-- Decoded text whose recovered header holds a numeric-looking cell. -/
def exHeaderText : Str := strL "123,name\n1,2"

/-- The final (normalized) workbook the pipeline produces for
`exHeaderText`: the header cell `"123"` has been coerced to `Number 123`. -/
def exHeaderFinalWb : Workbook :=
  ⟨[⟨strL "Sheet1", [[.num 123, .str (strL "name")], [.num 1, .num 2]]⟩]⟩

/-- The workbook `textBasedRecovery` itself produces for `exHeaderText`
(before `normalizeWorkbook`): the header row is still all strings. -/
def exHeaderRawWb : Workbook :=
  ⟨[⟨strL "Sheet1", [[.str (strL "123"), .str (strL "name")], [.num 1, .num 2]]⟩]⟩

/-- Decoded text on which the source's delimiter choice differs from claim
C5's description: nine blank lines (so take-10-then-filter sees only the
first data line) and semicolons hidden inside quotes (which the plain split
counts but the quote-aware parser does not). -/
def exDelimText : Str := strL "\n\n\n\n\n\n\n\n\n\"1;2;3\",x\n\"4;5;6\",y"

/-- A ragged recovery input: two header columns, three data columns. -/
def exRaggedText : Str := strL "a,b\n1,2,3"

/-- The workbook produced for `exRaggedText` (header padded with `''`). -/
def exRaggedWb : Workbook :=
  ⟨[⟨strL "Sheet1", [[.str (strL "a"), .str (strL "b"), .str []],
                     [.num 1, .num 2, .num 3]]⟩]⟩

/-- A workbook used to instantiate the idempotence claim. -/
def exIdemWb : Workbook :=
  ⟨[⟨strL "My Sheet!", [[.str (strL " 7 "), .str (strL "x (u)"), .null],
                        [.num 2, .bool true, .str (strL "85%")]]⟩]⟩

/-! ## Basic lemmas about the string primitives -/

theorem dropTrailWS_idem (s : Str) : dropTrailWS (dropTrailWS s) = dropTrailWS s := by
  induction s with
  | nil => rfl
  | cons c rest ih =>
    rw [dropTrailWS]
    cases hr : dropTrailWS rest with
    | nil =>
      by_cases hc : isWS c = true
      · simp [hc, dropTrailWS]
      · simp only [Bool.not_eq_true] at hc
        simp [hc, dropTrailWS]
    | cons d t =>
      rw [dropTrailWS]
      rw [hr] at ih
      rw [ih]

theorem dropTrailWS_pref (s : Str) : ∃ t, s = dropTrailWS s ++ t := by
  induction s with
  | nil => exact ⟨[], rfl⟩
  | cons c rest ih =>
    obtain ⟨t, ht⟩ := ih
    rw [dropTrailWS]
    cases hr : dropTrailWS rest with
    | nil =>
      rw [hr] at ht
      by_cases hc : isWS c = true
      · exact ⟨c :: rest, by simp [hc]⟩
      · simp only [Bool.not_eq_true] at hc
        exact ⟨rest, by simp [hc]⟩
    | cons d u =>
      rw [hr] at ht
      exact ⟨t, by simpa using congrArg (c :: ·) ht⟩

theorem mem_dropTrailWS {c : Char} {s : Str} (h : c ∈ dropTrailWS s) : c ∈ s := by
  obtain ⟨t, ht⟩ := dropTrailWS_pref s
  rw [ht]
  exact List.mem_append_left _ h

theorem dropWhile_head_not (p : Char → Bool) :
    ∀ (s : Str) (c : Char) (t : Str), s.dropWhile p = c :: t → p c = false := by
  intro s
  induction s with
  | nil => intro c t h; simp [List.dropWhile] at h
  | cons a rest ih =>
    intro c t h
    cases hpa : p a with
    | true => rw [List.dropWhile_cons, if_pos hpa] at h; exact ih c t h
    | false =>
      rw [List.dropWhile_cons, if_neg (by simp [hpa])] at h
      cases h
      exact hpa

theorem dropWhile_cons_false {p : Char → Bool} {c : Char} (rest : Str)
    (h : p c = false) : (c :: rest).dropWhile p = c :: rest := by
  rw [List.dropWhile_cons, if_neg (by simp [h])]

theorem trim_idem (s : Str) : trim (trim s) = trim s := by
  unfold trim
  have h1 : (dropTrailWS (s.dropWhile isWS)).dropWhile isWS
      = dropTrailWS (s.dropWhile isWS) := by
    cases hd : dropTrailWS (s.dropWhile isWS) with
    | nil => rfl
    | cons c t =>
      obtain ⟨t', ht'⟩ := dropTrailWS_pref (s.dropWhile isWS)
      rw [hd] at ht'
      have hc : isWS c = false := by
        apply dropWhile_head_not isWS s c (t ++ t')
        simpa using ht'
      exact dropWhile_cons_false t hc
  rw [h1, dropTrailWS_idem]

theorem trim_nil : trim [] = [] := rfl

theorem mem_trim {c : Char} {s : Str} (h : c ∈ trim s) : c ∈ s := by
  unfold trim at h
  exact List.Sublist.mem (mem_dropTrailWS h) (List.dropWhile_sublist _)

theorem dropTrailWS_eq_self {s : Str} (h : ∀ c ∈ s, isWS c = false) :
    dropTrailWS s = s := by
  induction s with
  | nil => rfl
  | cons c rest ih =>
    have hrest : dropTrailWS rest = rest := ih (fun d hd => h d (List.mem_cons_of_mem _ hd))
    rw [dropTrailWS, hrest]
    cases rest with
    | nil => simp [h c (List.mem_cons_self _ _)]
    | cons d u => rfl

theorem trim_eq_self {s : Str} (h : ∀ c ∈ s, isWS c = false) : trim s = s := by
  unfold trim
  have h1 : s.dropWhile isWS = s := by
    cases s with
    | nil => rfl
    | cons c rest => exact dropWhile_cons_false rest (h c (List.mem_cons_self _ _))
  rw [h1]
  exact dropTrailWS_eq_self h

theorem isEmpty_false_of_mem {c : Char} {s : Str} (h : c ∈ s) : s.isEmpty = false := by
  cases s with
  | nil => simp at h
  | cons _ _ => rfl

/-- Applying `normalizeCell` to an already-trimmed string changes nothing:
every rule of the source reads only `value.trim()`. -/
theorem normalizeCell_trim (s : Str) : normalizeCell (trim s) = normalizeCell s := by
  unfold normalizeCell
  rw [trim_idem]

/-- C2: for every input string whose trimmed form contains both `(` and `)`,
`normalizeCell` returns the trimmed string as Text; no numeric, percent,
date or boolean coercion is applied. -/
theorem claim_parens_always_text (s : Str) (h1 : '(' ∈ trim s) (h2 : ')' ∈ trim s) :
    normalizeCell s = .str (trim s) := by
  have he : (trim s).isEmpty = false := isEmpty_false_of_mem h1
  have hp : containsParens (trim s) = true := by
    unfold containsParens containsChar
    simp [h1, h2]
  unfold normalizeCell
  simp [he, hp]

theorem claim_parens_always_text_witness :
    normalizeCell (strL "true (flag)") = .str (strL "true (flag)") ∧
    normalizeCell (strL "2024-01-01 (rev)") = .str (strL "2024-01-01 (rev)") :=
  ⟨(claim_parens_always_text (strL "true (flag)") (by decide) (by decide)).trans
      (by decide),
   (claim_parens_always_text (strL "2024-01-01 (rev)") (by decide) (by decide)).trans
      (by decide)⟩

/-- C8: when the lowercased filename's final dot-component is `xlsx`, the
conversion returns the input buffer unchanged — for any serializer, any
standard-parse outcome, any decoded text and either value of
`forceTextRecovery` (the pass-through precedes the `forceTextRecovery`
branch and the whole pipeline). -/
theorem claim_xlsx_passthrough (serialize : Workbook → List Nat)
    (stdParse : Option Workbook) (decoded : Str) (buffer : List Nat)
    (filename : Str) (force : Bool) (h : getFileExt filename = strL "xlsx") :
    convertToXlsx serialize stdParse decoded buffer filename force = .ok buffer := by
  unfold convertToXlsx
  rw [if_pos h]

theorem claim_xlsx_passthrough_witness :
    convertToXlsx (fun _ => [9]) none (strL "x,y") [1, 2, 3] (strL "a.XLSX") true
      = .ok [1, 2, 3] :=
  claim_xlsx_passthrough _ _ _ _ _ _ (by decide)

/-- Every list `parseGo` produces is non-empty. -/
theorem parseGo_ne_nil (delim : Char) (cs : Str) (q : Option Char) (cur : Str) :
    parseGo delim cs q cur ≠ [] := by
  induction cs, q, cur using parseGo.induct delim with
  | case1 x current => simp [parseGo]
  | case2 c rest current h ih =>
    rw [parseGo, if_pos h]; exact ih
  | case3 rest current h ih =>
    rw [parseGo, if_neg h, if_pos rfl]; simp
  | case4 c rest current h1 h2 ih =>
    rw [parseGo, if_neg h1, if_neg h2]; exact ih
  | case5 q current =>
    rw [parseGo, if_pos rfl]; simp
  | case6 c q current h =>
    rw [parseGo, if_neg h]; simp
  | case7 rest q current ih =>
    rw [parseGo, if_pos rfl, if_pos rfl]; exact ih
  | case8 c' rest q current h ih =>
    rw [parseGo, if_pos rfl, if_neg h]; exact ih
  | case9 c c' rest q current h ih =>
    rw [parseGo, if_neg h]; exact ih

/-- Every cell `parseGo` produces is the `trim` of something. -/
theorem parseGo_cells_trim (delim : Char) (cs : Str) (q : Option Char) (cur : Str) :
    ∀ x ∈ parseGo delim cs q cur, ∃ y, x = trim y := by
  induction cs, q, cur using parseGo.induct delim with
  | case1 x current =>
    intro z hz
    rw [parseGo, List.mem_singleton] at hz
    exact ⟨current, hz⟩
  | case2 c rest current h ih =>
    intro z hz
    rw [parseGo, if_pos h] at hz
    exact ih z hz
  | case3 rest current h ih =>
    intro z hz
    rw [parseGo, if_neg h, if_pos rfl] at hz
    rcases List.mem_cons.1 hz with rfl | hz'
    · exact ⟨current, rfl⟩
    · exact ih z hz'
  | case4 c rest current h1 h2 ih =>
    intro z hz
    rw [parseGo, if_neg h1, if_neg h2] at hz
    exact ih z hz
  | case5 q current =>
    intro z hz
    rw [parseGo, if_pos rfl] at hz
    exact ⟨current, List.mem_singleton.1 hz⟩
  | case6 c q current h =>
    intro z hz
    rw [parseGo, if_neg h] at hz
    exact ⟨current ++ [c], List.mem_singleton.1 hz⟩
  | case7 rest q current ih =>
    intro z hz
    rw [parseGo, if_pos rfl, if_pos rfl] at hz
    exact ih z hz
  | case8 c' rest q current h ih =>
    intro z hz
    rw [parseGo, if_pos rfl, if_neg h] at hz
    exact ih z hz
  | case9 c c' rest q current h ih =>
    intro z hz
    rw [parseGo, if_neg h] at hz
    exact ih z hz

/-- C9: the row parser is total and best-effort — for every line and every
delimiter it returns at least one cell, every returned cell is trimmed, and
on the unterminated-quote line `a,"b,c` the content accumulated inside the
open quoted span is flushed as the final cell instead of raising. -/
theorem claim_rowparser_total :
    (∀ (line : Str) (delim : Char),
      parseCSVLine line delim ≠ [] ∧
      ∀ cell ∈ parseCSVLine line delim, trim cell = cell) ∧
    parseCSVLine (strL "a,\"b,c") ',' = [strL "a", strL "b,c"] := by
  constructor
  · intro line delim
    refine ⟨parseGo_ne_nil delim (trim line) none [], ?_⟩
    intro cell hcell
    obtain ⟨y, hy⟩ := parseGo_cells_trim delim (trim line) none [] cell hcell
    rw [hy, trim_idem]
  · decide

theorem claim_rowparser_total_witness :
    parseCSVLine (strL "x;; y ;") ';' ≠ [] ∧
    ∀ cell ∈ parseCSVLine (strL "x;; y ;") ';', trim cell = cell :=
  claim_rowparser_total.1 (strL "x;; y ;") ';'

/-- C6 (code bug): the source names blank-header placeholders with
`cells.indexOf(cell)`, a content lookup; on the header line `,,` all three
blank cells therefore receive the first blank column's label `컬럼1` instead
of the positional labels `컬럼1`, `컬럼2`, `컬럼3` the spec requires. -/
theorem claim_header_placeholder_bug :
    headerCells (parseCSVLine (strL ",,") ',')
      = [strL "컬럼1", strL "컬럼1", strL "컬럼1"] := by decide

/-- C1 counterexample: on the recovery input `123,name\n1,2` the final
workbook — `textBasedRecovery` followed by `normalizeWorkbook` — holds
`Number 123` in the header row: `normalizeWorkbook` re-runs `normalizeCell`
on every string cell with no row-0 exemption, so the header cell `"123"` is
coerced and is not Text. -/
theorem claim_header_text_counterexample :
    Except.map normalizeWorkbook (textBasedRecovery exHeaderText)
      = .ok exHeaderFinalWb := by decide

/-! ## Structure lemmas for the recovery grid -/

theorem recoveryData_row_mem {text : Str} {row : List Cell}
    (h : row ∈ recoveryData text) : row ∈ recoveryProcessed text := by
  unfold recoveryData at h
  obtain ⟨p, hp, heq⟩ := List.mem_filterMap.1 h
  by_cases hc : p.1 = 0 ∨ (processLine (detectDelimiter text) p.1 p.2).any nonEmptyCell
  · rw [if_pos hc] at heq
    cases heq
    exact List.mem_map.2 ⟨p, hp, rfl⟩
  · rw [if_neg hc] at heq
    cases heq

theorem foldl_max_init_le (l : List (List Cell)) (m : Nat) :
    m ≤ l.foldl (fun a r => Nat.max a r.length) m := by
  induction l generalizing m with
  | nil => exact Nat.le_refl m
  | cons r t ih => exact Nat.le_trans (Nat.le_max_left m r.length) (ih _)

theorem length_le_foldl_max {l : List (List Cell)} {r : List Cell} (h : r ∈ l) (m : Nat) :
    r.length ≤ l.foldl (fun a x => Nat.max a x.length) m := by
  induction l generalizing m with
  | nil => simp at h
  | cons x t ih =>
    rcases List.mem_cons.1 h with rfl | h'
    · exact Nat.le_trans (Nat.le_max_right m r.length) (foldl_max_init_le t _)
    · exact ih h' _

theorem recoveryData_length_le {text : Str} {row : List Cell}
    (h : row ∈ recoveryData text) : row.length ≤ recoveryMaxColumns text := by
  unfold recoveryMaxColumns
  exact length_le_foldl_max (recoveryData_row_mem h) 0

theorem padRow_length {w : Nat} {row : List Cell} (h : row.length ≤ w) :
    (padRow w row).length = w := by
  unfold padRow
  rw [List.length_append, List.length_replicate]
  omega

/-- C3: every grid the recovery pipeline produces is rectangular — after the
padding step, every row's length equals the header row's (row 0) length. -/
theorem claim_grid_rectangular (text : Str) (wb : Workbook)
    (h : textBasedRecovery text = .ok wb) :
    ∀ sh ∈ wb.sheets, ∀ row ∈ sh.grid, row.length = (sh.grid.headD []).length := by
  unfold textBasedRecovery at h
  split at h
  · cases h
  · cases h
    intro sh hsh row hrow
    have hsh' : sh = ⟨strL "Sheet1",
        (recoveryData text).map (padRow (recoveryMaxColumns text))⟩ := by
      simpa using hsh
    subst hsh'
    have hall : ∀ r ∈ (recoveryData text).map (padRow (recoveryMaxColumns text)),
        r.length = recoveryMaxColumns text := by
      intro r hr
      obtain ⟨r₀, hr₀, rfl⟩ := List.mem_map.1 hr
      exact padRow_length (recoveryData_length_le hr₀)
    have hhead : ((recoveryData text).map
        (padRow (recoveryMaxColumns text))).headD [] ∈
        (recoveryData text).map (padRow (recoveryMaxColumns text)) := by
      cases hd : (recoveryData text).map (padRow (recoveryMaxColumns text)) with
      | nil =>
        rename_i hne
        rw [hd] at hne
        simp at hne
      | cons a t => simp
    rw [hall row hrow, hall _ hhead]

theorem claim_grid_rectangular_witness :
    ([Cell.str (strL "a"), .str (strL "b"), .str []] : List Cell).length
      = (((exRaggedWb.sheets.headD ⟨[], []⟩).grid).headD []).length :=
  claim_grid_rectangular exRaggedText exRaggedWb (by decide)
    (exRaggedWb.sheets.headD ⟨[], []⟩) (by decide)
    [Cell.str (strL "a"), .str (strL "b"), .str []] (by decide)

theorem processLine_zero (delim : Char) (line : Str) :
    processLine delim 0 line
      = (headerCells (parseCSVLine line delim)).map Cell.str := by
  simp [processLine]

theorem recoveryData_head {text : Str} {l₀ : Str} {rest : List Str}
    (h : recoveryLines text = l₀ :: rest) :
    ∃ t, recoveryData text = processLine (detectDelimiter text) 0 l₀ :: t := by
  unfold recoveryData
  rw [h, List.enum_cons]
  simp only [List.filterMap_cons]
  rw [if_pos (Or.inl trivial)]
  exact ⟨_, rfl⟩

/-- C1 (amended): in the workbook `textBasedRecovery` itself produces, every
header-row cell is a string — the raw parsed cell, a placeholder label, or an
`''` padding cell — never Number, Percent, Date or Boolean.  (The claim as
stated fails for the *final* workbook: see the counterexample —
`normalizeWorkbook` re-normalizes string cells of every row with no header
exemption.) -/
theorem claim_header_text_amended (text : Str) (wb : Workbook)
    (h : textBasedRecovery text = .ok wb) :
    ∀ sh ∈ wb.sheets, ∀ c ∈ sh.grid.headD [], ∃ s, c = .str s := by
  unfold textBasedRecovery at h
  split at h
  · cases h
  · rename_i hne
    cases h
    intro sh hsh c hc
    have hsh' : sh = ⟨strL "Sheet1",
        (recoveryData text).map (padRow (recoveryMaxColumns text))⟩ := by
      simpa using hsh
    subst hsh'
    have hdata : recoveryData text ≠ [] := by
      intro h0
      rw [h0] at hne
      simp at hne
    obtain ⟨l₀, rest, hl⟩ : ∃ l₀ rest, recoveryLines text = l₀ :: rest := by
      cases hl : recoveryLines text with
      | nil =>
        exfalso
        apply hdata
        unfold recoveryData
        rw [hl]
        rfl
      | cons a b => exact ⟨a, b, rfl⟩
    obtain ⟨t, ht⟩ := recoveryData_head hl
    simp only [ht, List.map_cons, List.headD_cons] at hc
    rw [processLine_zero] at hc
    unfold padRow at hc
    rcases List.mem_append.1 hc with hc | hc
    · obtain ⟨s, _, rfl⟩ := List.mem_map.1 hc
      exact ⟨s, rfl⟩
    · rw [List.eq_of_mem_replicate hc]
      exact ⟨[], rfl⟩

theorem claim_header_text_witness :
    ∃ s, Cell.str (strL "123") = Cell.str s :=
  claim_header_text_amended exHeaderText exHeaderRawWb (by decide)
    ⟨strL "Sheet1", [[.str (strL "123"), .str (strL "name")], [.num 1, .num 2]]⟩
    (by decide) (.str (strL "123")) (by decide)

/-- C4: when the decoded text has zero non-blank lines, the recovery
pipeline fails with the empty-result error, and (on the recovery path:
valid extension and size, a non-`.xlsx` name, `forceTextRecovery` on)
`processFile` absorbs it into a structured `{success: false}` result
carrying a message — the error never escapes. -/
theorem claim_empty_input_failure (serialize : Workbook → List Nat)
    (stdParse : Option Workbook) (decoded : Str) (buffer : List Nat)
    (filename : Str)
    (hvalid : validateFileExtension filename = true)
    (hsize : validateFileSize buffer.length = true)
    (hnx : ¬ getFileExt filename = strL "xlsx")
    (hblank : recoveryLines decoded = []) :
    textBasedRecovery decoded
      = .error (strL "파싱된 데이터가 없습니다. 파일 형식을 확인해주세요.") ∧
    (processFile serialize stdParse decoded buffer filename true).success = false ∧
    ((processFile serialize stdParse decoded buffer filename true).message).isSome
      = true := by
  have hdata : recoveryData decoded = [] := by
    unfold recoveryData
    rw [hblank]
    rfl
  have hrec : textBasedRecovery decoded
      = .error (strL "파싱된 데이터가 없습니다. 파일 형식을 확인해주세요.") := by
    unfold textBasedRecovery
    rw [hdata]
    rfl
  refine ⟨hrec, ?_⟩
  have hconv : convertToXlsx serialize stdParse decoded buffer filename true
      = .error (strL "파일 변환에 실패했습니다: "
          ++ strL "파싱된 데이터가 없습니다. 파일 형식을 확인해주세요.") := by
    unfold convertToXlsx
    rw [if_neg hnx, if_pos rfl, hrec]
  unfold processFile
  rw [hvalid, hsize]
  simp [hconv]

theorem claim_empty_input_failure_witness :
    textBasedRecovery (strL " \n\t\n")
      = .error (strL "파싱된 데이터가 없습니다. 파일 형식을 확인해주세요.") ∧
    (processFile (fun _ => []) none (strL " \n\t\n") [] (strL "a.csv") true).success
      = false ∧
    ((processFile (fun _ => []) none (strL " \n\t\n") [] (strL "a.csv") true).message).isSome
      = true :=
  claim_empty_input_failure (fun _ => []) none (strL " \n\t\n") [] (strL "a.csv")
    (by decide) (by decide) (by decide) (by decide)

/-- C5 counterexample: on `exDelimText` the source picks `;` although, under
the procedure the claim describes (first-10-non-blank sampling and the
quote-aware row parser), comma is the strictly highest-scoring candidate and
the claimed procedure picks `,`.  The source actually samples the first 10
raw lines before dropping blanks and splits with the plain `split`. -/
theorem claim_delimiter_scoring_counterexample :
    detectDelimiter exDelimText = ';' ∧
    detectDelimiterClaimed exDelimText = ',' ∧
    scoreOfClaimed (sampledLinesClaimed exDelimText) ';'
      < scoreOfClaimed (sampledLinesClaimed exDelimText) ',' :=
  ⟨by decide, by decide, by decide⟩

theorem scoreOf_nonneg_of_counts_ne {lines : List Str} {d : Char}
    (h : columnCounts lines d = []) : scoreOf lines d = 0 := by
  unfold scoreOf
  rw [if_pos h]

/-- Invariant of the best-delimiter fold: starting from `(b, m)` with
`0 ≤ m`, either nothing beat `m` (the accumulator is returned and every
candidate scores at most `m`), or the result is the first candidate
attaining the final maximum, every earlier candidate scores strictly below
it, every candidate scores at most it, and it strictly exceeds `m`. -/
theorem detectFold_spec (lines : List Str) :
    ∀ (ds : List Char) (b : Char) (m : ℚ), 0 ≤ m →
      (ds.foldl (detectStep lines) (b, m) = (b, m) ∧
        ∀ d ∈ ds, scoreOf lines d ≤ m) ∨
      (∃ pre post,
        ds = pre ++ (ds.foldl (detectStep lines) (b, m)).1 :: post ∧
        m < (ds.foldl (detectStep lines) (b, m)).2 ∧
        (ds.foldl (detectStep lines) (b, m)).2
          = scoreOf lines (ds.foldl (detectStep lines) (b, m)).1 ∧
        (∀ d ∈ pre, scoreOf lines d < (ds.foldl (detectStep lines) (b, m)).2) ∧
        (∀ d ∈ ds, scoreOf lines d ≤ (ds.foldl (detectStep lines) (b, m)).2)) := by
  intro ds
  induction ds with
  | nil =>
    intro b m hm
    left
    exact ⟨rfl, by simp⟩
  | cons d rest ih =>
    intro b m hm
    rw [List.foldl_cons]
    by_cases hcc : columnCounts lines d = []
    · have hstep : detectStep lines (b, m) d = (b, m) := by
        unfold detectStep
        rw [if_pos hcc]
      have hsd : scoreOf lines d = 0 := scoreOf_nonneg_of_counts_ne hcc
      rw [hstep]
      rcases ih b m hm with ⟨heq, hall⟩ | ⟨pre, post, hds, hlt, hsc, hpre, hall⟩
      · left
        refine ⟨heq, ?_⟩
        intro d' hd'
        rcases List.mem_cons.1 hd' with rfl | hd'
        · rw [hsd]; exact hm
        · exact hall d' hd'
      · right
        refine ⟨d :: pre, post, by rw [List.cons_append, ← hds], hlt, hsc, ?_, ?_⟩
        · intro d' hd'
          rcases List.mem_cons.1 hd' with rfl | hd'
          · rw [hsd]; exact lt_of_le_of_lt hm hlt
          · exact hpre d' hd'
        · intro d' hd'
          rcases List.mem_cons.1 hd' with rfl | hd'
          · rw [hsd]; exact le_of_lt (lt_of_le_of_lt hm hlt)
          · exact hall d' hd'
    · by_cases hgt : scoreOf lines d > m
      · have hstep : detectStep lines (b, m) d = (d, scoreOf lines d) := by
          unfold detectStep
          rw [if_neg hcc, if_pos hgt]
        rw [hstep]
        have hm' : (0 : ℚ) ≤ scoreOf lines d := le_of_lt (lt_of_le_of_lt hm hgt)
        rcases ih d (scoreOf lines d) hm' with
          ⟨heq, hall⟩ | ⟨pre, post, hds, hlt, hsc, hpre, hall⟩
        · right
          rw [heq]
          refine ⟨[], rest, by simp, hgt, rfl, by simp, ?_⟩
          intro d' hd'
          rcases List.mem_cons.1 hd' with rfl | hd'
          · exact le_refl _
          · exact hall d' hd'
        · right
          refine ⟨d :: pre, post, by rw [List.cons_append, ← hds],
            lt_trans hgt hlt, hsc, ?_, ?_⟩
          · intro d' hd'
            rcases List.mem_cons.1 hd' with rfl | hd'
            · exact hlt
            · exact hpre d' hd'
          · intro d' hd'
            rcases List.mem_cons.1 hd' with rfl | hd'
            · exact le_of_lt hlt
            · exact hall d' hd'
      · have hstep : detectStep lines (b, m) d = (b, m) := by
          unfold detectStep
          rw [if_neg hcc, if_neg hgt]
        have hsd : scoreOf lines d ≤ m := not_lt.1 hgt
        rw [hstep]
        rcases ih b m hm with ⟨heq, hall⟩ | ⟨pre, post, hds, hlt, hsc, hpre, hall⟩
        · left
          refine ⟨heq, ?_⟩
          intro d' hd'
          rcases List.mem_cons.1 hd' with rfl | hd'
          · exact hsd
          · exact hall d' hd'
        · right
          refine ⟨d :: pre, post, by rw [List.cons_append, ← hds], hlt, hsc, ?_, ?_⟩
          · intro d' hd'
            rcases List.mem_cons.1 hd' with rfl | hd'
            · exact lt_of_le_of_lt hsd hlt
            · exact hpre d' hd'
          · intro d' hd'
            rcases List.mem_cons.1 hd' with rfl | hd'
            · exact le_trans hsd (le_of_lt hlt)
            · exact hall d' hd'

/-- C5 (amended): `detectDelimiter` samples the **first 10 raw lines and then
drops the blank ones**, splits each sampled line with the **plain
single-character split** (quotes are not considered), scores candidates by
`avg * max(consistency, 0.5) * len(counts)` with `consistency = 0.8` when
`max > 10` else `1 - (max-min)/max(avg,1)`, and returns the first candidate
in the order tab, comma, semicolon, pipe attaining the (strictly positive)
maximal score, defaulting to comma when no candidate scores above zero. -/
theorem claim_delimiter_scoring_amended (text : Str) :
    detectDelimiter text ∈ delimiterCandidates ∧
    (∀ d ∈ delimiterCandidates,
      scoreOf (sampledLines text) d
        ≤ max (scoreOf (sampledLines text) (detectDelimiter text)) 0) ∧
    ((∀ d ∈ delimiterCandidates, scoreOf (sampledLines text) d ≤ 0) →
      detectDelimiter text = ',') ∧
    (0 < scoreOf (sampledLines text) (detectDelimiter text) →
      ∃ pre post, delimiterCandidates = pre ++ detectDelimiter text :: post ∧
        ∀ d ∈ pre, scoreOf (sampledLines text) d
          < scoreOf (sampledLines text) (detectDelimiter text)) := by
  have h := detectFold_spec (sampledLines text) delimiterCandidates ',' 0 (le_refl 0)
  unfold detectDelimiter
  set F := delimiterCandidates.foldl (detectStep (sampledLines text)) (',', 0) with hF
  rcases h with ⟨heq, hall⟩ | ⟨pre, post, hds, hlt, hsc, hpre, hall⟩
  · rw [heq]
    refine ⟨by decide, ?_, fun _ => rfl, ?_⟩
    · intro d hd
      exact le_trans (hall d hd) (le_max_right _ _)
    · intro hpos
      exact absurd hpos (not_lt.2 (hall ',' (by decide)))
  · refine ⟨?_, ?_, ?_, ?_⟩
    · rw [hds]
      exact List.mem_append_right _ (List.mem_cons_self _ _)
    · intro d hd
      have h2 := hall d hd
      rw [hsc] at h2
      exact le_trans h2 (le_max_left _ _)
    · intro hle
      exfalso
      have hmem : F.1 ∈ delimiterCandidates := by
        rw [hds]
        exact List.mem_append_right _ (List.mem_cons_self _ _)
      have := hle _ hmem
      rw [hsc] at hlt
      exact absurd hlt (not_lt.2 this)
    · intro _
      refine ⟨pre, post, hds, ?_⟩
      intro d hd
      have h2 := hpre d hd
      rw [hsc] at h2
      exact h2

theorem claim_delimiter_scoring_witness :
    detectDelimiter (strL "abc") = ',' :=
  (claim_delimiter_scoring_amended (strL "abc")).2.2.1 (by decide)

/-! ## Idempotence of WorkbookNormalizer -/

theorem normalizeCell_str_cases {s t : Str} (h : normalizeCell s = .str t) :
    t = [] ∨ t = trim s := by
  unfold normalizeCell at h
  split at h
  · left
    cases h
    rfl
  · split at h
    · right
      cases h
      rfl
    · split at h
      · cases h
      · split at h
        · cases h
        · split at h
          · cases h
          · split at h
            · cases h
            · right
              cases h
              rfl

theorem normalizeCell_nil : normalizeCell [] = .str [] := by decide

theorem normalizeCellValue_normalizeCell (s : Str) :
    normalizeCellValue (normalizeCell s) = normalizeCell s := by
  cases he : normalizeCell s with
  | str t =>
    show normalizeCell t = Cell.str t
    rcases normalizeCell_str_cases he with rfl | rfl
    · exact normalizeCell_nil
    · rw [normalizeCell_trim]
      exact he
  | null => rfl
  | num q => rfl
  | bool b => rfl
  | date y m d => rfl

theorem normalizeCellValue_idem (c : Cell) :
    normalizeCellValue (normalizeCellValue c) = normalizeCellValue c := by
  cases c with
  | str s => exact normalizeCellValue_normalizeCell s
  | null => rfl
  | num q => rfl
  | bool b => rfl
  | date y m d => rfl

theorem noDD_pair {c c₂ : Char} {r : Str}
    (h : noDoubleUnderscore (c :: c₂ :: r) = true) : ¬(c = '_' ∧ c₂ = '_') := by
  rw [noDoubleUnderscore] at h
  simp only [Bool.and_eq_true] at h
  intro hand
  have h1 := h.1
  rw [hand.1, hand.2] at h1
  simp at h1

theorem noDD_tail {c : Char} {rest : Str}
    (h : noDoubleUnderscore (c :: rest) = true) : noDoubleUnderscore rest = true := by
  cases rest with
  | nil => rfl
  | cons d t =>
    rw [noDoubleUnderscore] at h
    simp only [Bool.and_eq_true] at h
    exact h.2

theorem noDD_dropWhile (p : Char → Bool) {s : Str}
    (h : noDoubleUnderscore s = true) :
    noDoubleUnderscore (s.dropWhile p) = true := by
  induction s with
  | nil => exact h
  | cons c rest ih =>
    cases hp : p c with
    | true =>
      rw [List.dropWhile_cons, if_pos hp]
      exact ih (noDD_tail h)
    | false =>
      rw [List.dropWhile_cons, if_neg (by simp [hp])]
      exact h

theorem noDD_append_left {a b : Str}
    (h : noDoubleUnderscore (a ++ b) = true) : noDoubleUnderscore a = true := by
  induction a with
  | nil => rfl
  | cons c a' ih =>
    cases a' with
    | nil => rfl
    | cons c₂ a'' =>
      rw [List.cons_append, List.cons_append, noDoubleUnderscore] at h
      simp only [Bool.and_eq_true] at h
      rw [noDoubleUnderscore]
      simp only [Bool.and_eq_true]
      refine ⟨h.1, ih ?_⟩
      rw [List.cons_append]
      exact h.2

theorem noDD_dTW {s : Str} (h : noDoubleUnderscore s = true) :
    noDoubleUnderscore (dropTrailWS s) = true := by
  obtain ⟨t, ht⟩ := dropTrailWS_pref s
  rw [ht] at h
  exact noDD_append_left h

theorem noDD_trim {s : Str} (h : noDoubleUnderscore s = true) :
    noDoubleUnderscore (trim s) = true :=
  noDD_dTW (noDD_dropWhile isWS h)

theorem noDD_take (n : Nat) {s : Str} (h : noDoubleUnderscore s = true) :
    noDoubleUnderscore (s.take n) = true := by
  have hsplit := List.take_append_drop n s
  exact noDD_append_left (hsplit.symm ▸ h)

theorem head_collapseU (c : Char) (rest : Str) :
    (collapseUnderscores (c :: rest)).head? = some c := by
  induction rest generalizing c with
  | nil => rfl
  | cons c₂ r ih =>
    rw [collapseUnderscores]
    by_cases h : c = '_' ∧ c₂ = '_'
    · rw [if_pos h, ih c₂, h.1, h.2]
    · rw [if_neg h]
      rfl

theorem collapseU_noDD (s : Str) : noDoubleUnderscore (collapseUnderscores s) = true := by
  induction s with
  | nil => rfl
  | cons c rest ih =>
    cases rest with
    | nil => rfl
    | cons c₂ r =>
      by_cases h : c = '_' ∧ c₂ = '_'
      · rw [collapseUnderscores, if_pos h]
        exact ih
      · rw [collapseUnderscores, if_neg h]
        have hh := head_collapseU c₂ r
        cases hc : collapseUnderscores (c₂ :: r) with
        | nil => rw [hc] at hh; cases hh
        | cons d t =>
          rw [hc] at hh ih
          have hd : d = c₂ := by simpa using hh
          subst hd
          rw [noDoubleUnderscore]
          simp only [Bool.and_eq_true]
          refine ⟨?_, ih⟩
          by_cases h1 : c = '_'
          · have h2 : ¬ d = '_' := fun h2 => h ⟨h1, h2⟩
            simp [h1, h2]
          · simp [h1]

theorem collapseU_eq_self {s : Str} (h : noDoubleUnderscore s = true) :
    collapseUnderscores s = s := by
  induction s with
  | nil => rfl
  | cons c rest ih =>
    cases rest with
    | nil => rfl
    | cons c₂ r =>
      rw [collapseUnderscores, if_neg (noDD_pair h), ih (noDD_tail h)]

theorem mem_collapseU {c : Char} : ∀ {s : Str}, c ∈ collapseUnderscores s → c ∈ s := by
  intro s
  induction s with
  | nil => intro h; exact h
  | cons c₁ rest ih =>
    cases rest with
    | nil => intro h; exact h
    | cons c₂ r =>
      intro h
      rw [collapseUnderscores] at h
      by_cases hp : c₁ = '_' ∧ c₂ = '_'
      · rw [if_pos hp] at h
        exact List.mem_cons_of_mem _ (ih h)
      · rw [if_neg hp] at h
        rcases List.mem_cons.1 h with rfl | h'
        · exact List.mem_cons_self _ _
        · exact List.mem_cons_of_mem _ (ih h')

theorem allowed_not_ws {c : Char} (h : allowedFilenameChar c = true) :
    isWS c = false := by
  cases hw : isWS c with
  | false => rfl
  | true =>
    exfalso
    unfold isWS at hw
    simp only [Bool.or_eq_true, beq_iff_eq] at hw
    rcases hw with ((((rfl | rfl) | rfl) | rfl) | rfl) | rfl <;>
      exact absurd h (by decide)

theorem allowed_replaceCh (c : Char) :
    allowedFilenameChar (if allowedFilenameChar c then c else '_') = true := by
  by_cases h : allowedFilenameChar c = true
  · rw [if_pos h]
    exact h
  · rw [if_neg h]
    decide

theorem map_replace_eq_self {s : Str}
    (h : ∀ c ∈ s, allowedFilenameChar c = true) :
    s.map (fun c => if allowedFilenameChar c then c else '_') = s := by
  induction s with
  | nil => rfl
  | cons c rest ih =>
    rw [List.map_cons, if_pos (h c (List.mem_cons_self _ _)),
      ih (fun d hd => h d (List.mem_cons_of_mem _ hd))]

theorem sanitize_allowed (s : Str) :
    ∀ c ∈ sanitizeFilename s, allowedFilenameChar c = true := by
  intro c hc
  unfold sanitizeFilename at hc
  split at hc
  · revert hc
    revert c
    decide
  · have h1 := mem_trim hc
    have h2 := mem_collapseU h1
    obtain ⟨d, _, hd⟩ := List.mem_map.1 h2
    rw [← hd]
    exact allowed_replaceCh d

theorem sanitize_noDD (s : Str) :
    noDoubleUnderscore (sanitizeFilename s) = true := by
  unfold sanitizeFilename
  split
  · decide
  · exact noDD_trim (collapseU_noDD _)

theorem sanitize_ne_nil (s : Str) : sanitizeFilename s ≠ [] := by
  unfold sanitizeFilename
  split
  · decide
  · rename_i he
    simpa using he

theorem sanitize_take31_idem (name : Str) :
    (sanitizeFilename ((sanitizeFilename name).take 31)).take 31
      = (sanitizeFilename name).take 31 := by
  set y := sanitizeFilename name with hy
  have hall : ∀ c ∈ y.take 31, allowedFilenameChar c = true :=
    fun c hc => sanitize_allowed name c (hy ▸ List.take_subset 31 _ hc)
  have hnodd : noDoubleUnderscore (y.take 31) = true :=
    noDD_take 31 (hy ▸ sanitize_noDD name)
  have hne : y.take 31 ≠ [] := by
    cases hc : y with
    | nil => exact absurd (hy.symm.trans hc) (sanitize_ne_nil name)
    | cons c t => simp [List.take_cons]
  have hsan : sanitizeFilename (y.take 31) = y.take 31 := by
    unfold sanitizeFilename
    rw [map_replace_eq_self hall, collapseU_eq_self hnodd,
      trim_eq_self (fun c hc => allowed_not_ws (hall c hc))]
    rw [if_neg (by simpa using hne)]
  rw [hsan]
  exact List.take_of_length_le (le_trans (List.length_take 31 _).le (Nat.min_le_left _ _))

/-- C7: WorkbookNormalizer is idempotent — applying it twice to any workbook
yields the same workbook as applying it once (cell re-normalization is
stable and sheet-name sanitization is idempotent), and a cell that is
already typed (not a string — the RecoveryPipeline path's normalized data
cells) passes through the per-cell step unchanged. -/
theorem claim_normalize_idempotent :
    (∀ wb : Workbook, normalizeWorkbook (normalizeWorkbook wb) = normalizeWorkbook wb) ∧
    (∀ c : Cell, (∀ s, c ≠ Cell.str s) → normalizeCellValue c = c) := by
  constructor
  · intro wb
    unfold normalizeWorkbook
    simp only [List.map_map]
    refine congrArg Workbook.mk ?_
    apply List.map_congr_left
    intro sh _
    simp only [Function.comp]
    refine congrArg₂ Sheet.mk ?_ ?_
    · exact sanitize_take31_idem sh.name
    · rw [List.map_map]
      apply List.map_congr_left
      intro row _
      simp only [Function.comp]
      rw [List.map_map]
      apply List.map_congr_left
      intro c _
      exact normalizeCellValue_idem c
  · intro c hc
    cases c with
    | str s => exact absurd rfl (hc s)
    | null => rfl
    | num q => rfl
    | bool b => rfl
    | date y m d => rfl

theorem claim_normalize_idempotent_witness :
    normalizeWorkbook (normalizeWorkbook exIdemWb) = normalizeWorkbook exIdemWb ∧
    normalizeCellValue (Cell.num 5) = Cell.num 5 :=
  ⟨claim_normalize_idempotent.1 exIdemWb,
   claim_normalize_idempotent.2 (Cell.num 5) (fun _ h => Cell.noConfusion h)⟩

/-! ## The numeric rule and comma placement (C10) -/

theorem takeWhile_append_all {p : Char → Bool} {a : Str} (b : Str)
    (h : ∀ c ∈ a, p c = true) :
    (a ++ b).takeWhile p = a ++ b.takeWhile p := by
  induction a with
  | nil => rfl
  | cons c t ih =>
    rw [List.cons_append, List.takeWhile_cons, if_pos (h c (List.mem_cons_self _ _)),
      ih (fun d hd => h d (List.mem_cons_of_mem _ hd)), List.cons_append]

theorem matchNum_run_ne {s : Str} (h : matchNum s = true) :
    (dropSign s).takeWhile numChar ≠ [] := by
  unfold matchNum at h
  simp only [Bool.and_eq_true] at h
  intro h0
  rw [h0] at h
  simp at h

theorem matchNum_rest {s : Str} (h : matchNum s = true) :
    (dropSign s).dropWhile numChar = [] ∨
      ∃ ds, (dropSign s).dropWhile numChar = '.' :: ds ∧ ds.all Char.isDigit = true := by
  unfold matchNum at h
  simp only [Bool.and_eq_true, Bool.or_eq_true] at h
  rcases h.2 with h2 | h2
  · left
    exact List.isEmpty_iff.1 h2
  · right
    simp only [Bool.and_eq_true, beq_iff_eq] at h2
    cases hrest : (dropSign s).dropWhile numChar with
    | nil =>
      rw [hrest] at h2
      exact absurd h2.1 (by decide)
    | cons c ds =>
      rw [hrest] at h2
      simp only [List.headD_cons] at h2
      refine ⟨ds, ?_, ?_⟩
      · rw [h2.1]
      · simpa using h2.2

theorem matchNum_not_mem_paren {s : Str} (h : matchNum s = true) : '(' ∉ s := by
  intro hmem
  have hmem' : '(' ∈ dropSign s := by
    unfold dropSign
    split
    · rename_i hh
      cases s with
      | nil => simp at hmem
      | cons a t =>
        simp only [List.headD_cons] at hh
        subst hh
        rcases List.mem_cons.1 hmem with h' | h'
        · exact absurd h' (by decide)
        · simpa using h'
    · exact hmem
  rw [← List.takeWhile_append_dropWhile numChar (dropSign s)] at hmem'
  rcases List.mem_append.1 hmem' with h' | h'
  · exact absurd (List.mem_takeWhile_imp h') (by decide)
  · rcases matchNum_rest h with hr | ⟨ds, hr, hall⟩
    · rw [hr] at h'
      simp at h'
    · rw [hr] at h'
      rcases List.mem_cons.1 h' with h'' | h''
      · exact absurd h'' (by decide)
      · exact absurd (List.all_eq_true.1 hall _ h'') (by decide)

theorem stripCommas_digits {run : Str} (hb : ∀ c ∈ run, numChar c = true) :
    ∀ c ∈ stripCommas run, c.isDigit = true := by
  intro c hc
  unfold stripCommas at hc
  have h1 := List.mem_filter.1 hc
  have h2 := hb c h1.1
  unfold numChar at h2
  simp only [Bool.or_eq_true, beq_iff_eq] at h2
  rcases h2 with h2 | h2
  · exact h2
  · exfalso
    have h3 := h1.2
    rw [h2] at h3
    simp at h3

theorem stripCommas_ne_nil {run : Str} (hd : run.any Char.isDigit = true) :
    stripCommas run ≠ [] := by
  obtain ⟨c, hc, hdig⟩ := List.any_eq_true.1 hd
  intro h0
  have hmem : c ∈ stripCommas run := by
    unfold stripCommas
    refine List.mem_filter.2 ⟨hc, ?_⟩
    have hne : ¬ c = ',' := by
      intro he
      rw [he] at hdig
      exact absurd hdig (by decide)
    simpa using hne
  rw [h0] at hmem
  simp at hmem

theorem digit_ne_minus {c : Char} (h : c.isDigit = true) : ¬ c = '-' := by
  intro he
  rw [he] at h
  exact absurd h (by decide)

theorem parseDec_some_digits {d1 : Str} (rest2 : Str) (hne : d1 ≠ [])
    (hdig : ∀ c ∈ d1, c.isDigit = true) :
    ∃ q, parseDec (d1 ++ rest2) = some q := by
  cases d1 with
  | nil => exact absurd rfl hne
  | cons c t =>
    have hc : c.isDigit = true := hdig c (List.mem_cons_self _ _)
    have hip : ((c :: t) ++ rest2).takeWhile Char.isDigit
        = (c :: t) ++ rest2.takeWhile Char.isDigit := takeWhile_append_all _ hdig
    have hipne : (((c :: t) ++ rest2).takeWhile Char.isDigit).isEmpty = false := by
      rw [hip, List.cons_append]
      rfl
    have hsign : ¬ ((c :: t) ++ rest2).headD ' ' = '-' := by
      rw [List.cons_append, List.headD_cons]
      exact digit_ne_minus hc
    have hguard : ¬ ((((c :: t) ++ rest2).takeWhile Char.isDigit).isEmpty
        && (parseFrac ((c :: t) ++ rest2)).isEmpty) = true := by
      rw [hipne]
      simp
    unfold parseDec
    rw [if_neg hsign, if_neg hguard]
    exact ⟨_, rfl⟩

theorem parseDec_some_digits_neg {d1 : Str} (rest2 : Str) (hne : d1 ≠ [])
    (hdig : ∀ c ∈ d1, c.isDigit = true) :
    ∃ q, parseDec ('-' :: (d1 ++ rest2)) = some q := by
  cases d1 with
  | nil => exact absurd rfl hne
  | cons c t =>
    have hip : ((c :: t) ++ rest2).takeWhile Char.isDigit
        = (c :: t) ++ rest2.takeWhile Char.isDigit := takeWhile_append_all _ hdig
    have hipne : (((c :: t) ++ rest2).takeWhile Char.isDigit).isEmpty = false := by
      rw [hip, List.cons_append]
      rfl
    have hguard : ¬ ((((c :: t) ++ rest2).takeWhile Char.isDigit).isEmpty
        && (parseFrac ((c :: t) ++ rest2)).isEmpty) = true := by
      rw [hipne]
      simp
    unfold parseDec
    rw [if_pos (by rw [List.headD_cons])]
    simp only [List.drop_succ_cons, List.drop_zero]
    rw [if_neg hguard]
    exact ⟨_, rfl⟩

theorem parseDec_stripCommas {t : Str}
    (hany : (t.takeWhile numChar).any Char.isDigit = true) :
    (∃ q, parseDec (stripCommas t) = some q) ∧
    (∃ q, parseDec ('-' :: stripCommas t) = some q) := by
  have hd1ne : stripCommas (t.takeWhile numChar) ≠ [] := stripCommas_ne_nil hany
  have hd1dig : ∀ c ∈ stripCommas (t.takeWhile numChar), c.isDigit = true :=
    stripCommas_digits (fun c hc => List.mem_takeWhile_imp hc)
  have hstrip : stripCommas t = stripCommas (t.takeWhile numChar)
      ++ stripCommas (t.dropWhile numChar) := by
    unfold stripCommas
    rw [← List.filter_append, List.takeWhile_append_dropWhile]
  rw [hstrip]
  exact ⟨parseDec_some_digits _ hd1ne hd1dig,
    parseDec_some_digits_neg _ hd1ne hd1dig⟩

theorem claimNumShape_parse {s : Str} (h : claimNumShape s = true) :
    ∃ q, parseDec (stripCommas s) = some q := by
  unfold claimNumShape at h
  simp only [Bool.and_eq_true] at h
  obtain ⟨hmatch, hany⟩ := h
  by_cases hsign : s.headD ' ' = '-'
  · cases s with
    | nil => exact absurd hsign (by decide)
    | cons a t =>
      simp only [List.headD_cons] at hsign
      subst hsign
      have hds : dropSign ('-' :: t) = t := by
        unfold dropSign
        rw [if_pos (by rw [List.headD_cons])]
        rfl
      rw [hds] at hany
      have hsc : stripCommas ('-' :: t) = '-' :: stripCommas t := by
        unfold stripCommas
        rw [List.filter_cons, if_pos (by decide)]
      rw [hsc]
      exact (parseDec_stripCommas hany).2
  · have hds : dropSign s = s := by
      unfold dropSign
      rw [if_neg hsign]
    rw [hds] at hany
    exact (parseDec_stripCommas hany).1

/-- C10: the numeric rule constrains the digits, not the comma positions —
for every trimmed string made of an optional leading `-`, then digit-or-comma
characters with at least one digit among them, then an optional `.` and
trailing digits, whose comma-stripped value is finite, `normalizeCell`
removes all commas and returns the parsed number (so `1,2,3` → `123` and
`12,34` → `1234`, not Text). -/
theorem claim_numeric_commas (s : Str) (ht : trim s = s)
    (hshape : claimNumShape s = true)
    (hfin : isFiniteD (ratOfDec (stripCommas s)) = true) :
    normalizeCell s = .num (ratOfDec (stripCommas s)) := by
  have hmatch : matchNum s = true := by
    unfold claimNumShape at hshape
    simp only [Bool.and_eq_true] at hshape
    exact hshape.1
  obtain ⟨q, hq⟩ := claimNumShape_parse hshape
  have hval : ratOfDec (stripCommas s) = q := by
    unfold ratOfDec
    rw [hq]
    rfl
  have hnp : containsChar '(' s = false := by
    unfold containsChar
    simpa using matchNum_not_mem_paren hmatch
  have hsne : s ≠ [] := by
    intro h0
    subst h0
    exact matchNum_run_ne hmatch (by decide)
  have hnum : numRule s = some q := by
    unfold numRule
    rw [if_pos (by rw [hmatch, hnp]; rfl), hq]
    show (if isFiniteD q = true then some q else none) = some q
    rw [if_pos (by rw [← hval]; exact hfin)]
  unfold normalizeCell
  rw [ht]
  rw [if_neg (fun hcontra => hsne (List.isEmpty_iff.1 hcontra))]
  rw [if_neg (by unfold containsParens; rw [hnp]; simp)]
  rw [hnum, hval]

theorem claim_numeric_commas_witness :
    normalizeCell (strL "1,2,3") = .num 123 ∧
    normalizeCell (strL "12,34") = .num 1234 :=
  ⟨(claim_numeric_commas (strL "1,2,3") (by decide) (by decide) (by decide)).trans
      (by decide),
   (claim_numeric_commas (strL "12,34") (by decide) (by decide) (by decide)).trans
      (by decide)⟩
